import Mathlib

/-!
Shallow embedding of the video composition core of `hoti-rs`
(`src/video_gen/{mod,ui,subtitle,image_manager}.rs`).

Machine numerics: Rust `u32`/`usize` values are modelled as `ℕ`; the `f64`
values used for schedule computation are modelled as `ℚ` (the source only
multiplies, divides and rounds values far below any overflow or precision
boundary on the inputs of interest).  `.round()` on a nonnegative `f64`
agrees with Mathlib's `round` on `ℚ`.  Rust code that can panic is embedded
as an `Option`-valued function, `none` standing for a panic.
-/

namespace HotiRs

/-! ## Subtitle schedule (`src/video_gen/subtitle.rs`) -/

/-- Per-character utterance weight, from the `match ch` in
`SubtitleManager::new`: the redaction glyph `'█'` is skipped (weight 0),
`'.'`, `','`, `'?'` add 2, every other character adds 1. -/
def charWeight (c : Char) : ℕ :=
  if c = '█' then 0
  else if c = '.' ∨ c = ',' ∨ c = '?' then 2
  else 1

/-- Total utterance weight of a text: the first `for ch in text.chars()`
loop of `SubtitleManager::new`. -/
def textWeight (cs : List Char) : ℕ := (cs.map charWeight).sum

/-- Rust `str::split(' ')`: splits on every single space, keeping empty
pieces; the empty string yields `[""]`. -/
def splitSp : List Char → List (List Char)
  | [] => [[]]
  | c :: cs =>
    if c = ' ' then [] :: splitSp cs
    else
      match splitSp cs with
      | [] => [[c]]
      | w :: ws => (c :: w) :: ws

/-- Rust `f64::round() as u32` for a nonnegative argument: round half away
from zero, which for nonnegative rationals is Mathlib's `round`. -/
def rround (q : ℚ) : ℕ := (round q).toNat

/-- The word loop of `SubtitleManager::new`.  State: `prev` =
`prev_utterances`, `cur` = `current_utterances`, and the `parts` vector is
kept as `done ++ [(lf, lc)]` so that the in-place mutation of
`parts.last_mut()` is the functional update of `(lf, lc)`. -/
def newLoop (fpc : ℚ) : ℕ → ℕ → List (ℕ × List Char) → ℕ → List Char →
    List (List Char) → List (ℕ × List Char)
  | _, _, done, lf, lc, [] => done ++ [(lf, lc)]
  | prev, cur, done, lf, lc, w :: ws =>
    let this := textWeight w + 1
    if cur + this < 100 then
      newLoop fpc prev (cur + this) done lf (lc ++ ' ' :: w) ws
    else
      newLoop fpc (prev + cur) this (done ++ [(lf, lc)])
        (rround ((prev + cur : ℕ) * fpc)) w ws

/-- `SubtitleManager` state: the precomputed `(frame, chunk)` schedule. -/
structure SubtitleManager where
  parts : List (ℕ × List Char)
deriving DecidableEq, Repr

/-- `SubtitleManager::new(text, total_frames)`. -/
def SubtitleManager.new (text : List Char) (total_frames : ℕ) : SubtitleManager :=
  let utterances := textWeight text
  let fpc : ℚ := (total_frames : ℚ) / (utterances : ℚ)
  ⟨newLoop fpc 0 0 [] 0 [] (splitSp text)⟩

/-! ### Lemmas about the subtitle schedule -/

theorem splitSp_ne_nil (cs : List Char) : splitSp cs ≠ [] := by
  cases cs with
  | nil => simp [splitSp]
  | cons c cs =>
    simp only [splitSp]
    split
    · simp
    · split <;> simp

theorem textWeight_nil : textWeight [] = 0 := rfl

theorem textWeight_cons (c : Char) (cs : List Char) :
    textWeight (c :: cs) = charWeight c + textWeight cs := by
  simp [textWeight]

/-- The word weights (with the `+1` separator added in the loop) over the
split of a text sum to the character weight of the text plus one. -/
theorem sum_wordWeights (cs : List Char) :
    ((splitSp cs).map (fun w => textWeight w + 1)).sum = textWeight cs + 1 := by
  induction cs with
  | nil => simp [splitSp, textWeight_nil]
  | cons c cs ih =>
    simp only [splitSp]
    by_cases hc : c = ' '
    · have hw : charWeight c = 1 := by rw [hc]; decide
      rw [if_pos hc, List.map_cons, List.sum_cons, ih, textWeight_cons, hw,
        textWeight_nil]
      omega
    · rw [if_neg hc]
      rcases hsp : splitSp cs with _ | ⟨w, ws⟩
      · exact absurd hsp (splitSp_ne_nil cs)
      · rw [hsp] at ih
        rw [List.map_cons, List.sum_cons] at ih ⊢
        rw [textWeight_cons c w, textWeight_cons c cs]
        omega

theorem rround_zero : rround 0 = 0 := by
  simp [rround]

theorem rround_mono {q r : ℚ} (h : q ≤ r) : rround q ≤ rround r := by
  refine Int.toNat_le_toNat ?_
  rw [round_eq, round_eq]
  exact Int.floor_le_floor (by linarith)

theorem rround_natCast (n : ℕ) : rround (n : ℚ) = n := by
  simp [rround]

/-- Shape of the loop's result: the accumulated `done` prefix survives
unchanged and the pending chunk keeps its frame. -/
theorem newLoop_shape (fpc : ℚ) (ws : List (List Char)) :
    ∀ (prev cur : ℕ) (done : List (ℕ × List Char)) (lf : ℕ) (lc : List Char),
      ∃ s tail, newLoop fpc prev cur done lf lc ws = done ++ (lf, s) :: tail := by
  induction ws with
  | nil => exact fun prev cur done lf lc => ⟨lc, [], rfl⟩
  | cons w ws ih =>
    intro prev cur done lf lc
    simp only [newLoop]
    split
    · exact ih _ _ _ _ _
    · obtain ⟨s, tail, h⟩ := ih (prev + cur) (textWeight w + 1)
        (done ++ [(lf, lc)]) (rround ((prev + cur : ℕ) * fpc)) w
      refine ⟨lc, (rround ((prev + cur : ℕ) * fpc), s) :: tail, ?_⟩
      rw [h]
      simp

theorem chain'_le_concat {l : List ℕ} {a b : ℕ}
    (h : List.Chain' (· ≤ ·) (l ++ [a])) (hab : a ≤ b) :
    List.Chain' (· ≤ ·) (l ++ [a] ++ [b]) := by
  rw [List.chain'_append]
  refine ⟨h, List.chain'_singleton b, ?_⟩
  intro x hx y hy
  rw [List.getLast?_concat] at hx
  simp only [List.head?_cons, Option.mem_def, Option.some.injEq] at hx hy
  omega

/-- Invariant of the word loop of `SubtitleManager::new`: with `U` the
total utterance weight of the text and `fpc = total_frames / U`, as long as
the remaining words' weights account for the rest of `U + 1`, every frame
in the result is at most `total_frames` and the frames are nondecreasing. -/
theorem newLoop_frames (tf U : ℕ) (hU : 0 < U) (ws : List (List Char)) :
    ∀ (prev cur : ℕ) (done : List (ℕ × List Char)) (lf : ℕ) (lc : List Char),
      prev + cur + (ws.map (fun w => textWeight w + 1)).sum = U + 1 →
      lf = rround ((prev : ℚ) * ((tf : ℚ) / (U : ℚ))) →
      List.Chain' (· ≤ ·) (done.map Prod.fst ++ [lf]) →
      (∀ f ∈ done.map Prod.fst ++ [lf], f ≤ tf) →
      List.Chain' (· ≤ ·)
          ((newLoop ((tf : ℚ) / (U : ℚ)) prev cur done lf lc ws).map Prod.fst) ∧
        ∀ f ∈ (newLoop ((tf : ℚ) / (U : ℚ)) prev cur done lf lc ws).map Prod.fst,
          f ≤ tf := by
  induction ws with
  | nil =>
    intro prev cur done lf lc _ _ hchain hbound
    simp only [newLoop, List.map_append, List.map_cons, List.map_nil]
    exact ⟨hchain, hbound⟩
  | cons w ws ih =>
    intro prev cur done lf lc hsum hlf hchain hbound
    rw [List.map_cons, List.sum_cons] at hsum
    simp only [newLoop]
    split
    · exact ih prev (cur + (textWeight w + 1)) done lf (lc ++ ' ' :: w)
        (by omega) hlf hchain hbound
    · have hfpc : (0 : ℚ) ≤ (tf : ℚ) / (U : ℚ) := by positivity
      have hmono : lf ≤ rround ((prev + cur : ℕ) * ((tf : ℚ) / (U : ℚ))) := by
        rw [hlf]
        refine rround_mono (mul_le_mul_of_nonneg_right ?_ hfpc)
        exact_mod_cast Nat.le_add_right prev cur
      have hle : rround ((prev + cur : ℕ) * ((tf : ℚ) / (U : ℚ))) ≤ tf := by
        have hpc : prev + cur ≤ U := by omega
        have h1 : ((prev + cur : ℕ) : ℚ) * ((tf : ℚ) / (U : ℚ)) ≤ (tf : ℚ) := by
          have h2 : (U : ℚ) * ((tf : ℚ) / (U : ℚ)) = (tf : ℚ) := by
            field_simp
          calc ((prev + cur : ℕ) : ℚ) * ((tf : ℚ) / (U : ℚ))
              ≤ (U : ℚ) * ((tf : ℚ) / (U : ℚ)) := by
                refine mul_le_mul_of_nonneg_right ?_ hfpc
                exact_mod_cast hpc
            _ = (tf : ℚ) := h2
        exact (rround_mono h1).trans_eq (rround_natCast tf)
      refine ih (prev + cur) (textWeight w + 1) (done ++ [(lf, lc)])
        (rround ((prev + cur : ℕ) * ((tf : ℚ) / (U : ℚ)))) w (by omega) ?_ ?_ ?_
      · push_cast
        rfl
      · rw [List.map_append, List.map_cons, List.map_nil]
        exact chain'_le_concat hchain hmono
      · intro f hf
        rw [List.map_append, List.map_cons, List.map_nil] at hf
        rcases List.mem_append.mp hf with h | h
        · exact hbound f h
        · rw [List.mem_singleton] at h
          omega

/-- C4: the subtitle schedule weights the redaction glyph 0, sentence
punctuation 2 and other characters 1 (plus one per word in the loop), and
greedily accumulates words while the weight stays below 100; for
`"Hello, world."` with `total_frames = 600` exactly one chunk is scheduled,
at frame 0. -/
theorem subtitle_schedule_hello_world :
    charWeight '█' = 0 ∧ charWeight '.' = 2 ∧ charWeight ',' = 2 ∧
      charWeight '?' = 2 ∧ charWeight 'a' = 1 ∧ charWeight ' ' = 1 ∧
      textWeight "Hello, world.".data = 15 ∧
      (SubtitleManager.new "Hello, world.".data 600).parts =
        [(0, " Hello, world.".data)] := by
  refine ⟨by decide, by decide, by decide, by decide, by decide, by decide,
    by decide, by decide⟩

/-- C5 (amended): for a text of positive total utterance weight, the
scheduled frame indices start at 0, are nondecreasing, and are bounded by
`total_frames`.  (Strict increase fails, see
`subtitle_schedule_not_strict`.) -/
theorem subtitle_schedule_frames (text : List Char) (tf : ℕ)
    (hw : 0 < textWeight text) :
    (((SubtitleManager.new text tf).parts.map Prod.fst).head? = some 0) ∧
      List.Chain' (· ≤ ·) ((SubtitleManager.new text tf).parts.map Prod.fst) ∧
      ∀ f ∈ (SubtitleManager.new text tf).parts.map Prod.fst, f ≤ tf := by
  have hmain := newLoop_frames tf (textWeight text) hw (splitSp text) 0 0 [] 0 []
    (by rw [sum_wordWeights]; omega) ?_ ?_ ?_
  · obtain ⟨s, tail, hshape⟩ :=
      newLoop_shape ((tf : ℚ) / (textWeight text : ℚ)) (splitSp text) 0 0 [] 0 []
    refine ⟨?_, hmain.1, hmain.2⟩
    rw [SubtitleManager.new]
    rw [hshape]
    simp
  · rw [Nat.cast_zero, zero_mul, rround_zero]
  · simp
  · intro f hf
    simp only [List.map_nil, List.nil_append, List.mem_singleton] at hf
    omega

/-- Witness: `subtitle_schedule_frames` at `"Hello, world."`, 600 frames. -/
theorem subtitle_schedule_frames_witness :
    0 < textWeight "Hello, world.".data ∧
      ((((SubtitleManager.new "Hello, world.".data 600).parts.map
            Prod.fst).head? = some 0) ∧
        List.Chain' (· ≤ ·)
          ((SubtitleManager.new "Hello, world.".data 600).parts.map Prod.fst) ∧
        ∀ f ∈ (SubtitleManager.new "Hello, world.".data 600).parts.map
            Prod.fst, f ≤ 600) :=
  ⟨by decide, subtitle_schedule_frames "Hello, world.".data 600 (by decide)⟩

/-- C5 counterexample: a single word of utterance weight 99 (99 `'a'`s)
meets the threshold on the very first word, so a second chunk is scheduled
at frame `round(0 × fpc) = 0` next to the initial chunk at frame 0: the
schedule `[0, 0]` is not strictly increasing. -/
theorem subtitle_schedule_not_strict :
    ((SubtitleManager.new (List.replicate 99 'a') 600).parts.map Prod.fst =
        [0, 0]) ∧
      ¬ List.Chain' (· < ·)
        ((SubtitleManager.new (List.replicate 99 'a') 600).parts.map
          Prod.fst) := by
  have h1 : splitSp (List.replicate 99 'a') = [List.replicate 99 'a'] := by
    decide
  have h2 : ¬ (0 + (textWeight (List.replicate 99 'a') + 1) < 100) := by
    decide
  have key : (SubtitleManager.new (List.replicate 99 'a') 600).parts.map
      Prod.fst = [0, 0] := by
    rw [SubtitleManager.new, h1, newLoop]
    rw [if_neg h2]
    rw [newLoop]
    simp [rround_zero]
  refine ⟨key, ?_⟩
  rw [key]
  intro h
  exact absurd (List.chain'_cons.mp h).1 (lt_irrefl 0)

/-- C6: for the all-redaction text `"█"` the total utterance weight is 0,
yet `SubtitleManager::new` contains no guard on the division
`total_frames / total_utterances` and still schedules one subtitle chunk,
at frame 0 — the schedule is not empty. -/
theorem subtitle_zero_utterance_schedule :
    textWeight "█".data = 0 ∧
      (SubtitleManager.new "█".data 600).parts = [(0, " █".data)] := by
  exact ⟨by decide, by decide⟩

/-! ## Frame source (`src/video_gen/mod.rs`, `VideoFrameIter`) -/

/-- `VideoFrameIter` state.  The UI tree is abstracted to a type parameter
`U` and the updaters to pure state transformers `ℕ → U → U`; the raster
buffer produced per frame is not modelled (the claims concern the index
sequence).  `size` and `frame_rate` play no role in `next`. -/
structure VideoFrameIter (U : Type) where
  current_frame_idx : ℕ
  total_frames : ℕ
  ui : U
  updaters : List (ℕ → U → U)

/-- `VideoFrameIter::new`: starts at index 0 with
`total_frames = (duration.as_secs_f64() * frame_rate as f64).round() as u32`
(`rround` = round half away from zero then clamp below 0, as the `as u32`
cast does). -/
def VideoFrameIter.new (U : Type) (duration : ℚ) (frame_rate : ℕ) (ui : U) :
    VideoFrameIter U :=
  { current_frame_idx := 0
    total_frames := rround (duration * (frame_rate : ℚ))
    ui := ui
    updaters := [] }

/-- `Iterator::next for VideoFrameIter`: `None` once
`current_frame_idx >= total_frames`; otherwise run every updater at the
current index, return the previous index, and increment. -/
def VideoFrameIter.next {U : Type} (it : VideoFrameIter U) :
    Option (ℕ × VideoFrameIter U) :=
  if it.total_frames ≤ it.current_frame_idx then
    none
  else
    some (it.current_frame_idx,
      { it with
        ui := it.updaters.foldl (fun u upd => upd it.current_frame_idx u) it.ui
        current_frame_idx := it.current_frame_idx + 1 })

/-- One pull of the iterator, keeping the final state when exhausted. -/
def VideoFrameIter.advance {U : Type} (it : VideoFrameIter U) :
    VideoFrameIter U :=
  match it.next with
  | none => it
  | some (_, it') => it'

/-- `k` successive pulls of the iterator. -/
def VideoFrameIter.advanceN {U : Type} (it : VideoFrameIter U) :
    ℕ → VideoFrameIter U
  | 0 => it
  | k + 1 => (it.advanceN k).advance

theorem VideoFrameIter.advance_total {U : Type} (it : VideoFrameIter U) :
    it.advance.total_frames = it.total_frames := by
  by_cases h : it.total_frames ≤ it.current_frame_idx
  · simp [VideoFrameIter.advance, VideoFrameIter.next, h]
  · simp [VideoFrameIter.advance, VideoFrameIter.next, h]

theorem VideoFrameIter.advanceN_total {U : Type} (it : VideoFrameIter U)
    (k : ℕ) : (it.advanceN k).total_frames = it.total_frames := by
  induction k with
  | zero => rfl
  | succ k ih => rw [VideoFrameIter.advanceN, VideoFrameIter.advance_total, ih]

theorem VideoFrameIter.advanceN_idx {U : Type} (it : VideoFrameIter U)
    (h0 : it.current_frame_idx = 0) :
    ∀ k, k ≤ it.total_frames → (it.advanceN k).current_frame_idx = k := by
  intro k
  induction k with
  | zero => intro _; simpa [VideoFrameIter.advanceN] using h0
  | succ k ih =>
    intro hk
    have hidx : (it.advanceN k).current_frame_idx = k := ih (by omega)
    have htot := it.advanceN_total k
    have hlt : ¬ ((it.advanceN k).total_frames ≤
        (it.advanceN k).current_frame_idx) := by omega
    rw [VideoFrameIter.advanceN]
    rw [hidx] at hlt
    simp [VideoFrameIter.advance, VideoFrameIter.next, hlt, hidx]

/-- C1: the frame source is constructed with
`total_frames = round(duration × frame_rate)`; the `k`-th pull
(`k < total_frames`) yields `Some` with frame index `k`, and any state
with `current_frame_idx ≥ total_frames` yields `None`. -/
theorem frameSource_exactness (U : Type) (d : ℚ) (r : ℕ) (u : U) (k : ℕ)
    (hk : k < (VideoFrameIter.new U d r u).total_frames) :
    (VideoFrameIter.new U d r u).total_frames =
        (round (d * (r : ℚ))).toNat ∧
      (((VideoFrameIter.new U d r u).advanceN k).next).map Prod.fst =
        some k ∧
      ∀ it : VideoFrameIter U,
        it.total_frames ≤ it.current_frame_idx → it.next = none := by
  refine ⟨rfl, ?_, ?_⟩
  · have hidx := (VideoFrameIter.new U d r u).advanceN_idx rfl k (by omega)
    have htot := (VideoFrameIter.new U d r u).advanceN_total k
    have hlt : ¬ (((VideoFrameIter.new U d r u).advanceN k).total_frames ≤
        ((VideoFrameIter.new U d r u).advanceN k).current_frame_idx) := by
      omega
    simp only [VideoFrameIter.next, hidx, if_neg (by omega :
      ¬ (((VideoFrameIter.new U d r u).advanceN k).total_frames ≤ k))]
    rfl
  · intro it h
    simp [VideoFrameIter.next, h]

/-- Witness: `frameSource_exactness` with duration 600 s at 1 fps, pull 3. -/
theorem frameSource_exactness_witness :
    3 < (VideoFrameIter.new Unit ((600 : ℕ) : ℚ) 1 ()).total_frames ∧
      ((VideoFrameIter.new Unit ((600 : ℕ) : ℚ) 1 ()).total_frames =
          (round (((600 : ℕ) : ℚ) * ((1 : ℕ) : ℚ))).toNat ∧
        ((((VideoFrameIter.new Unit ((600 : ℕ) : ℚ) 1 ()).advanceN 3).next).map
            Prod.fst = some 3) ∧
        ∀ it : VideoFrameIter Unit,
          it.total_frames ≤ it.current_frame_idx → it.next = none) := by
  have h3 : 3 < (VideoFrameIter.new Unit ((600 : ℕ) : ℚ) 1 ()).total_frames := by
    have : (VideoFrameIter.new Unit ((600 : ℕ) : ℚ) 1 ()).total_frames = 600 := by
      rw [VideoFrameIter.new]
      rw [show (((1 : ℕ) : ℚ)) = 1 from Nat.cast_one]
      rw [mul_one, rround_natCast]
    omega
  exact ⟨h3, frameSource_exactness Unit ((600 : ℕ) : ℚ) 1 () 3 h3⟩

/-! ## Image swap schedule (`src/video_gen/image_manager.rs`) -/

/-- Number of generated images in `ImageManager::new`:
`((duration - 5s).as_secs_f64() / 5.0) as u8`.  The float-to-`u8` cast
truncates toward zero (floor for nonnegative values) and saturates at
0 and 255. -/
def imageCount (durationSecs : ℚ) : ℕ :=
  min (⌊(durationSecs - 5) / 5⌋.toNat) 255

/-- `frame_step` in `ImageManager::new`:
`((duration - 5s).as_secs_f64() / n as f64) as u32 * frame_rate`
(the `u32` cast truncates toward zero and saturates below at 0). -/
def frameStep (durationSecs : ℚ) (frame_rate : ℕ) : ℕ :=
  (⌊(durationSecs - 5) / (imageCount durationSecs : ℚ)⌋.toNat) * frame_rate

/-- Frame assigned to the `i`-th image (0-indexed):
`5 * frame_rate + frame_step * i as u32`. -/
def imageFrame (durationSecs : ℚ) (frame_rate : ℕ) (i : ℕ) : ℕ :=
  5 * frame_rate + frameStep durationSecs frame_rate * i

/-- The frames of the image-swap schedule, in image order. -/
def imageSchedule (durationSecs : ℚ) (frame_rate : ℕ) : List ℕ :=
  (List.range (imageCount durationSecs)).map (imageFrame durationSecs frame_rate)

/-- Batch sizes of the `while n != 0 { request n.min(10); n -= n.min(10) }`
request loop of `ImageManager::new`. -/
def batchSizes : ℕ → List ℕ
  | 0 => []
  | n + 1 => min (n + 1) 10 :: batchSizes (n + 1 - min (n + 1) 10)
decreasing_by
  omega

theorem batchSizes_zero : batchSizes 0 = [] := by
  simp [batchSizes]

theorem batchSizes_succ (n : ℕ) :
    batchSizes (n + 1) = min (n + 1) 10 :: batchSizes (n + 1 - min (n + 1) 10) := by
  simp [batchSizes]

theorem batchSizes_le_ten (m : ℕ) :
    (batchSizes m).all (fun b => b ≤ 10) = true := by
  induction m using Nat.strong_induction_on with
  | _ m ih =>
    match m with
    | 0 => rw [batchSizes_zero]; rfl
    | n + 1 =>
      rw [batchSizes_succ, List.all_cons]
      rw [ih _ (by omega)]
      simp

theorem batchSizes_sum (m : ℕ) : (batchSizes m).sum = m := by
  induction m using Nat.strong_induction_on with
  | _ m ih =>
    match m with
    | 0 => rw [batchSizes_zero]; rfl
    | n + 1 =>
      rw [batchSizes_succ, List.sum_cons, ih _ (by omega)]
      omega

/-- C7: for duration 35 s at 30 fps the schedule has `n = 6` images with
step 150, scheduled exactly at frames 150..900, none before frame 150;
in general images are requested in batches of at most 10 that add up to
`n`. -/
theorem image_schedule_35s_30fps :
    imageCount 35 = 6 ∧ frameStep 35 30 = 150 ∧
      imageSchedule 35 30 = [150, 300, 450, 600, 750, 900] ∧
      (imageSchedule 35 30).all (fun f => 150 ≤ f) = true ∧
      batchSizes (imageCount 35) = [6] ∧
      (∀ m, (batchSizes m).all (fun b => b ≤ 10) = true) ∧
      (∀ m, (batchSizes m).sum = m) := by
  have hcount : imageCount 35 = 6 := by
    rw [imageCount, show ((35 : ℚ) - 5) / 5 = ((6 : ℕ) : ℚ) by norm_num,
      Int.floor_natCast]
    rfl
  have hstep : frameStep 35 30 = 150 := by
    rw [frameStep, hcount,
      show ((35 : ℚ) - 5) / ((6 : ℕ) : ℚ) = ((5 : ℕ) : ℚ) by norm_num,
      Int.floor_natCast]
    rfl
  have hsched : imageSchedule 35 30 = [150, 300, 450, 600, 750, 900] := by
    rw [imageSchedule, hcount]
    rw [show List.range 6 = [0, 1, 2, 3, 4, 5] from rfl]
    simp only [List.map_cons, List.map_nil, imageFrame, hstep]
  have hbatch : batchSizes 6 = [6] := by
    have h0 := batchSizes_zero
    rw [show (6 : ℕ) = 5 + 1 from rfl, batchSizes_succ]
    norm_num [h0]
  refine ⟨hcount, hstep, hsched, by rw [hsched]; rfl, by rw [hcount]; exact hbatch,
    batchSizes_le_ten, batchSizes_sum⟩

/-! ## UI tree (`src/video_gen/ui.rs`) -/

/-- `Node` from `ui.rs`: a tagged union of text, image and container.  The
layout `Style` carried by `StyledNode` and the font/scale/color fields of
`TextCentered` are omitted: none of the verified claims depends on them,
only on the tree shape, the text content and the image handle. -/
inductive Node where
  | textCentered (text : List Char)
  | image (handle : ℕ)
  | container (children : List Node)

/-- `VideoUI`: the root's children plus a background color (RGBA word,
abstracted to `ℕ`).  The image store is modelled separately. -/
structure VideoUI where
  children : List Node
  background_color : ℕ

/-- Writing the subtitle text into a node, as the
`if let Node::TextCentered { text, .. } = ...` arm does (non-text nodes
are left alone). -/
def setSubtitleText : Node → List Char → Node
  | Node.textCentered _, s => Node.textCentered s
  | n, _ => n

/-- Writing a new image handle into a node, as the
`if let Node::Image(img) = ...` arm does. -/
def setImageHandle : Node → ℕ → Node
  | Node.image _, h => Node.image h
  | n, _ => n

/-- `SubtitleManager::update` (`subtitle.rs`): on an exact frame match it
indexes `ui.children[3]` unconditionally — a panic (`none`) when the root
has at most 3 children — and otherwise leaves the tree unchanged. -/
def SubtitleManager.update (m : SubtitleManager) (frame_idx : ℕ)
    (ui : VideoUI) : Option VideoUI :=
  match m.parts.find? (fun p => p.1 == frame_idx) with
  | none => some ui
  | some (_, s) =>
    if h : 3 < ui.children.length then
      let c := setSubtitleText (ui.children.get ⟨3, h⟩) s
      some { ui with children := ui.children.set 3 c }
    else
      none

/-- `ImageManager` state: the precomputed `(frame, handle)` schedule. -/
structure ImageManager where
  images : List (ℕ × ℕ)

/-- `ImageManager::update` (`image_manager.rs`): on an exact frame match it
indexes `ui.children[1]` unconditionally — a panic (`none`) when the root
has at most 1 child — and otherwise leaves the tree unchanged. -/
def ImageManager.update (m : ImageManager) (frame_idx : ℕ)
    (ui : VideoUI) : Option VideoUI :=
  match m.images.find? (fun p => p.1 == frame_idx) with
  | none => some ui
  | some (_, handle) =>
    if h : 1 < ui.children.length then
      let c := setImageHandle (ui.children.get ⟨1, h⟩) handle
      some { ui with children := ui.children.set 1 c }
    else
      none

theorem subtitle_parts_head (text : List Char) (tf : ℕ) :
    ∃ s tail, (SubtitleManager.new text tf).parts = (0, s) :: tail := by
  obtain ⟨s, tail, h⟩ := newLoop_shape ((tf : ℚ) / (textWeight text : ℚ))
    (splitSp text) 0 0 [] 0 []
  exact ⟨s, tail, by rw [SubtitleManager.new]; rw [h]; rfl⟩

/-- C10: both updaters address fixed root-child slots: on a frame that
matches a schedule entry, `SubtitleManager::update` indexes
`ui.children[3]` and `ImageManager::update` indexes `ui.children[1]`,
panicking when the root has too few children — for the subtitle updater
this includes frame 0, which is always scheduled; on non-matching frames
both leave the UI tree unchanged. -/
theorem updaters_fixed_slots :
    (∀ (m : SubtitleManager) (idx : ℕ) (ui : VideoUI),
        (m.parts.find? (fun p => p.1 == idx)).isSome →
        ui.children.length ≤ 3 → m.update idx ui = none) ∧
      (∀ (m : ImageManager) (idx : ℕ) (ui : VideoUI),
        (m.images.find? (fun p => p.1 == idx)).isSome →
        ui.children.length ≤ 1 → m.update idx ui = none) ∧
      (∀ (text : List Char) (tf : ℕ) (ui : VideoUI),
        ui.children.length ≤ 3 →
        (SubtitleManager.new text tf).update 0 ui = none) ∧
      (∀ (m : SubtitleManager) (idx : ℕ) (ui : VideoUI),
        m.parts.find? (fun p => p.1 == idx) = none →
        m.update idx ui = some ui) ∧
      (∀ (m : ImageManager) (idx : ℕ) (ui : VideoUI),
        m.images.find? (fun p => p.1 == idx) = none →
        m.update idx ui = some ui) := by
  refine ⟨?_, ?_, ?_, ?_, ?_⟩
  · intro m idx ui hfind hlen
    obtain ⟨⟨f, s⟩, hfs⟩ := Option.isSome_iff_exists.mp hfind
    rw [SubtitleManager.update, hfs]
    exact dif_neg (by omega)
  · intro m idx ui hfind hlen
    obtain ⟨⟨f, s⟩, hfs⟩ := Option.isSome_iff_exists.mp hfind
    rw [ImageManager.update, hfs]
    exact dif_neg (by omega)
  · intro text tf ui hlen
    obtain ⟨s, tail, hparts⟩ := subtitle_parts_head text tf
    rw [SubtitleManager.update, hparts]
    rw [List.find?_cons_of_pos _ (by rfl)]
    exact dif_neg (by omega)
  · intro m idx ui hfind
    rw [SubtitleManager.update, hfind]
  · intro m idx ui hfind
    rw [ImageManager.update, hfind]

/-- Witness: `updaters_fixed_slots` on concrete managers and an empty
root. -/
theorem updaters_fixed_slots_witness :
    ((SubtitleManager.mk [(5, ['a'])]).parts.find?
        (fun p => p.1 == 5)).isSome = true ∧
      (VideoUI.mk [] 0).children.length ≤ 3 ∧
      (SubtitleManager.mk [(5, ['a'])]).update 5 (VideoUI.mk [] 0) = none ∧
      ((ImageManager.mk [(7, 9)]).images.find?
        (fun p => p.1 == 7)).isSome = true ∧
      (VideoUI.mk [] 0).children.length ≤ 1 ∧
      (ImageManager.mk [(7, 9)]).update 7 (VideoUI.mk [] 0) = none ∧
      (SubtitleManager.new "hi".data 60).update 0 (VideoUI.mk [] 0) = none ∧
      (SubtitleManager.mk [(5, ['a'])]).parts.find?
        (fun p => p.1 == 4) = none ∧
      (SubtitleManager.mk [(5, ['a'])]).update 4 (VideoUI.mk [] 0) =
        some (VideoUI.mk [] 0) ∧
      (ImageManager.mk [(7, 9)]).images.find? (fun p => p.1 == 4) = none ∧
      (ImageManager.mk [(7, 9)]).update 4 (VideoUI.mk [] 0) =
        some (VideoUI.mk [] 0) := by
  refine ⟨rfl, by decide, ?_, rfl, by decide, ?_, ?_, rfl, ?_, rfl, ?_⟩
  · exact updaters_fixed_slots.1 (SubtitleManager.mk [(5, ['a'])]) 5
      (VideoUI.mk [] 0) rfl (by decide)
  · exact updaters_fixed_slots.2.1 (ImageManager.mk [(7, 9)]) 7
      (VideoUI.mk [] 0) rfl (by decide)
  · exact updaters_fixed_slots.2.2.1 "hi".data 60 (VideoUI.mk [] 0) (by decide)
  · exact updaters_fixed_slots.2.2.2.1 (SubtitleManager.mk [(5, ['a'])]) 4
      (VideoUI.mk [] 0) rfl
  · exact updaters_fixed_slots.2.2.2.2 (ImageManager.mk [(7, 9)]) 4
      (VideoUI.mk [] 0) rfl

/-! ## Image store (`src/video_gen/ui.rs`, `ImageStore`) -/

/-- Association-list lookup, standing in for `HashMap` indexing (hashing
order is irrelevant to the verified claims). -/
def assocLookup {α β : Type} [DecidableEq α] (k : α) : List (α × β) → Option β
  | [] => none
  | (k', v) :: rest => if k = k' then some v else assocLookup k rest

/-- Association-list insert-or-replace, standing in for `HashMap` entry
insertion. -/
def setAssoc {α β : Type} [DecidableEq α] (k : α) (v : β) :
    List (α × β) → List (α × β)
  | [] => [(k, v)]
  | (k', v') :: rest =>
    if k = k' then (k, v) :: rest else (k', v') :: setAssoc k v rest

/-- `ImageStore`: owned images keyed by handle (`ℕ`), plus the memoization
cache keyed by handle and target size (`ℕ × ℕ` for `UVec2`).  The pixel
data type is a parameter `Img`. -/
structure ImageStore (Img : Type) where
  images : List (ℕ × Img)
  resize_cache : List (ℕ × List ((ℕ × ℕ) × Img))

/-- Lookup of a memoized resized copy. -/
def ImageStore.cacheLookup {Img : Type} (s : ImageStore Img) (handle : ℕ)
    (size : ℕ × ℕ) : Option Img :=
  assocLookup size ((assocLookup handle s.resize_cache).getD [])

/-- `ImageStore::get_resized`: `entry(handle).or_insert(default)` on the
outer map, then `entry(size).or_insert_with(|| resize(images[handle]))` on
the inner map.  `resize` abstracts the Lanczos3 resampler; the returned
`ℕ` counts how many times it was invoked by this call (the call-count
probe).  `images[handle]` on an unknown handle panics: `none`. -/
def ImageStore.get_resized {Img : Type} (resize : Img → ℕ × ℕ → Img)
    (s : ImageStore Img) (handle : ℕ) (size : ℕ × ℕ) :
    Option (Img × ImageStore Img × ℕ) :=
  let inner := (assocLookup handle s.resize_cache).getD []
  match assocLookup size inner with
  | some img =>
    some (img, { s with resize_cache := setAssoc handle inner s.resize_cache }, 0)
  | none =>
    match assocLookup handle s.images with
    | none => none
    | some base =>
      let img := resize base size
      some (img,
        { s with resize_cache :=
            setAssoc handle ((size, img) :: inner) s.resize_cache }, 1)

theorem assocLookup_setAssoc_self {α β : Type} [DecidableEq α] (k : α)
    (v : β) (l : List (α × β)) : assocLookup k (setAssoc k v l) = some v := by
  induction l with
  | nil => simp [assocLookup, setAssoc]
  | cons p rest ih =>
    obtain ⟨k', v'⟩ := p
    by_cases h : k = k'
    · simp [assocLookup, setAssoc, h]
    · simp [assocLookup, setAssoc, h, ih]

theorem assocLookup_setAssoc_ne {α β : Type} [DecidableEq α] {k k' : α}
    (h : k' ≠ k) (v : β) (l : List (α × β)) :
    assocLookup k' (setAssoc k v l) = assocLookup k' l := by
  induction l with
  | nil => simp [assocLookup, setAssoc, h]
  | cons p rest ih =>
    obtain ⟨k'', v''⟩ := p
    by_cases h2 : k = k''
    · subst h2
      simp [assocLookup, setAssoc, h]
    · by_cases h3 : k' = k''
      · simp [assocLookup, setAssoc, h2, h3]
      · simp [assocLookup, setAssoc, h2, h3, ih]

/-- A hit in the resize cache is returned as-is, with zero resampler
invocations. -/
theorem get_resized_hit {Img : Type} (resize : Img → ℕ × ℕ → Img)
    (s : ImageStore Img) (handle : ℕ) (size : ℕ × ℕ) (img : Img)
    (h : s.cacheLookup handle size = some img) :
    ∃ s₂, ImageStore.get_resized resize s handle size = some (img, s₂, 0) := by
  refine ⟨ImageStore.mk s.images
    (setAssoc handle ((assocLookup handle s.resize_cache).getD [])
      s.resize_cache), ?_⟩
  rw [ImageStore.cacheLookup] at h
  rw [ImageStore.get_resized, h]

/-- C8: for a handle stored in the image store, requesting the resized
image for `(handle, size)` twice returns the identical image; the
resampler runs at most once on the first call and never on the second,
and no cached entry is ever evicted by the call. -/
theorem imageStore_memoization {Img : Type} (resize : Img → ℕ × ℕ → Img)
    (s : ImageStore Img) (handle : ℕ) (size : ℕ × ℕ) (base : Img)
    (hbase : assocLookup handle s.images = some base) :
    ∃ img s₁ c₁,
      ImageStore.get_resized resize s handle size = some (img, s₁, c₁) ∧
        c₁ ≤ 1 ∧
        (∃ s₂, ImageStore.get_resized resize s₁ handle size = some (img, s₂, 0)) ∧
        ∀ h' sz v, s.cacheLookup h' sz = some v → s₁.cacheLookup h' sz = some v := by
  rcases hhit : assocLookup size ((assocLookup handle s.resize_cache).getD [])
    with _ | img
  · -- cache miss: the resampler runs once and the result is memoized
    have hcall : ImageStore.get_resized resize s handle size =
        some (resize base size,
          ImageStore.mk s.images
            (setAssoc handle
              ((size, resize base size) ::
                (assocLookup handle s.resize_cache).getD [])
              s.resize_cache),
          1) := by
      rw [ImageStore.get_resized, hhit, hbase]
    have hcache1 : (ImageStore.mk s.images
        (setAssoc handle
          ((size, resize base size) ::
            (assocLookup handle s.resize_cache).getD [])
          s.resize_cache)).cacheLookup handle size =
        some (resize base size) := by
      rw [ImageStore.cacheLookup]
      simp only [assocLookup_setAssoc_self, Option.getD_some]
      simp [assocLookup]
    have hsecond := get_resized_hit resize _ handle size _ hcache1
    have hpres : ∀ h' sz v, s.cacheLookup h' sz = some v →
        (ImageStore.mk s.images
          (setAssoc handle
            ((size, resize base size) ::
              (assocLookup handle s.resize_cache).getD [])
            s.resize_cache)).cacheLookup h' sz = some v := by
      intro h' sz v hv
      rw [ImageStore.cacheLookup] at hv ⊢
      by_cases hh : h' = handle
      · subst hh
        rw [assocLookup_setAssoc_self]
        simp only [Option.getD_some]
        rw [show assocLookup sz ((size, resize base size) ::
            (assocLookup h' s.resize_cache).getD []) =
            if sz = size then some (resize base size)
            else assocLookup sz ((assocLookup h' s.resize_cache).getD [])
          from by simp [assocLookup]]
        rcases hsz : decide (sz = size) with _ | _
        · rw [if_neg (of_decide_eq_false hsz)]
          exact hv
        · exact absurd (hv.symm.trans (by rw [of_decide_eq_true hsz, hhit]))
            (by simp)
      · rw [assocLookup_setAssoc_ne hh]
        exact hv
    exact ⟨_, _, _, hcall, by omega, hsecond, hpres⟩
  · -- cache hit: nothing is recomputed
    have hcall : ImageStore.get_resized resize s handle size =
        some (img,
          ImageStore.mk s.images
            (setAssoc handle ((assocLookup handle s.resize_cache).getD [])
              s.resize_cache),
          0) := by
      rw [ImageStore.get_resized, hhit]
    have hcache1 : (ImageStore.mk s.images
        (setAssoc handle ((assocLookup handle s.resize_cache).getD [])
          s.resize_cache)).cacheLookup handle size = some img := by
      rw [ImageStore.cacheLookup]
      simp only [assocLookup_setAssoc_self, Option.getD_some]
      exact hhit
    have hsecond := get_resized_hit resize _ handle size _ hcache1
    have hpres : ∀ h' sz v, s.cacheLookup h' sz = some v →
        (ImageStore.mk s.images
          (setAssoc handle ((assocLookup handle s.resize_cache).getD [])
            s.resize_cache)).cacheLookup h' sz = some v := by
      intro h' sz v hv
      rw [ImageStore.cacheLookup] at hv ⊢
      by_cases hh : h' = handle
      · subst hh
        rw [assocLookup_setAssoc_self]
        simpa using hv
      · rw [assocLookup_setAssoc_ne hh]
        exact hv
    exact ⟨_, _, _, hcall, by omega, hsecond, hpres⟩

/-- Witness: `imageStore_memoization` on a one-image store over `Img = ℕ`. -/
theorem imageStore_memoization_witness :
    assocLookup 7 (ImageStore.mk [(7, 5)] [] : ImageStore ℕ).images = some 5 ∧
      ∃ img s₁ c₁,
        ImageStore.get_resized (fun b sz => b + sz.1 + sz.2)
            (ImageStore.mk [(7, 5)] [] : ImageStore ℕ) 7 (2, 3) =
          some (img, s₁, c₁) ∧
          c₁ ≤ 1 ∧
          (∃ s₂, ImageStore.get_resized (fun b sz => b + sz.1 + sz.2) s₁ 7 (2, 3) =
            some (img, s₂, 0)) ∧
          ∀ h' sz v, (ImageStore.mk [(7, 5)] [] : ImageStore ℕ).cacheLookup h' sz =
            some v → s₁.cacheLookup h' sz = some v :=
  ⟨rfl, imageStore_memoization (fun b sz => b + sz.1 + sz.2)
    (ImageStore.mk [(7, 5)] []) 7 (2, 3) 5 rfl⟩


/-! ## Encode pipeline completion (`src/video_gen/mod.rs`, `encode_h264`) -/

/-- The bus message views the wait loop of `encode_h264` distinguishes:
`Eos` and `AsyncDone` (the end-of-stream/async-completion signals),
`Error`, and everything else. -/
inductive GstMessage where
  | eos
  | asyncDone
  | error
  | other
deriving DecidableEq

/-- Whether a message is counted by the `Eos | AsyncDone` arm. -/
def GstMessage.isSignal : GstMessage → Bool
  | GstMessage.eos => true
  | GstMessage.asyncDone => true
  | _ => false

/-- How the wait loop exited. -/
inductive WaitExit where
  | completed
  | erred
deriving DecidableEq

/-- The spec's pipeline states. -/
inductive PipelineState where
  | idle
  | playing
  | draining
  | stopped
deriving DecidableEq

/-- The `for msg in bus.iter_timed(..)` wait loop at the end of
`encode_h264`: `Eos`/`AsyncDone` increment `eof_count` and break once it
reaches 2; `Error` breaks immediately; other messages are skipped.  The
result carries the unconsumed messages; `none` means the (blocking)
iteration ran out of messages without exiting. -/
def waitLoop : ℕ → List GstMessage → Option (WaitExit × List GstMessage)
  | _, [] => none
  | count, msg :: rest =>
    if msg = GstMessage.error then
      some (WaitExit.erred, rest)
    else if msg.isSignal then
      if 2 ≤ count + 1 then some (WaitExit.completed, rest)
      else waitLoop (count + 1) rest
    else
      waitLoop count rest

/-- After the wait loop exits — for either reason — `encode_h264`
unconditionally sets the pipeline to `Null`: Stopped. -/
def encodeFinish (msgs : List GstMessage) : Option PipelineState :=
  (waitLoop 0 msgs).map (fun _ => PipelineState.stopped)

/-- C9: the wait loop never exits before it has counted two
end-of-stream/async-completion signals (absent an error), exits with
`completed` exactly when the second signal arrives, exits immediately on
an error without requiring both signals, and in every exit case the
pipeline is set to Stopped. -/
theorem pipeline_completion :
    (∀ (msgs : List GstMessage) (count : ℕ),
        count + msgs.countP GstMessage.isSignal < 2 →
        GstMessage.error ∉ msgs →
        waitLoop count msgs = none) ∧
      (∀ (p rest : List GstMessage) (count : ℕ) (sg : GstMessage),
        GstMessage.error ∉ p →
        count + p.countP GstMessage.isSignal = 1 →
        sg.isSignal = true →
        waitLoop count (p ++ sg :: rest) = some (WaitExit.completed, rest)) ∧
      (∀ (p rest : List GstMessage) (count : ℕ),
        GstMessage.error ∉ p →
        count + p.countP GstMessage.isSignal < 2 →
        waitLoop count (p ++ GstMessage.error :: rest) =
          some (WaitExit.erred, rest)) ∧
      (∀ (msgs : List GstMessage) (r : WaitExit × List GstMessage),
        waitLoop 0 msgs = some r →
        encodeFinish msgs = some PipelineState.stopped) := by
  have hA : ∀ (msgs : List GstMessage) (count : ℕ),
      count + msgs.countP GstMessage.isSignal < 2 →
      GstMessage.error ∉ msgs → waitLoop count msgs = none := by
    intro msgs
    induction msgs with
    | nil => intro count _ _; rfl
    | cons m rest ih =>
      intro count hcount hmem
      have hm : m ≠ GstMessage.error := fun h => hmem (h ▸ List.mem_cons_self m rest)
      rw [List.countP_cons] at hcount
      rw [waitLoop, if_neg hm]
      rcases hsig : m.isSignal with _ | _
      · rw [if_neg (by simp [hsig])]
        exact ih count (by rw [hsig] at hcount; simpa using hcount)
          (fun h => hmem (List.mem_cons_of_mem m h))
      · rw [if_pos (by simp [hsig])]
        rw [hsig] at hcount
        simp only [if_pos] at hcount
        rw [if_neg (by omega)]
        exact ih (count + 1) (by omega)
          (fun h => hmem (List.mem_cons_of_mem m h))
  have hB : ∀ (p rest : List GstMessage) (count : ℕ) (sg : GstMessage),
      GstMessage.error ∉ p →
      count + p.countP GstMessage.isSignal = 1 →
      sg.isSignal = true →
      waitLoop count (p ++ sg :: rest) = some (WaitExit.completed, rest) := by
    intro p
    induction p with
    | nil =>
      intro rest count sg _ hcount hsig
      have hsge : sg ≠ GstMessage.error := by
        intro h
        rw [h] at hsig
        exact Bool.false_ne_true hsig
      rw [List.nil_append, waitLoop, if_neg hsge, if_pos hsig,
        if_pos (by simp at hcount; omega)]
    | cons m p ih =>
      intro rest count sg hmem hcount hsig
      have hm : m ≠ GstMessage.error := fun h => hmem (h ▸ List.mem_cons_self m p)
      rw [List.countP_cons] at hcount
      rw [List.cons_append, waitLoop, if_neg hm]
      rcases hsigm : m.isSignal with _ | _
      · rw [if_neg (by simp [hsigm])]
        refine ih rest count sg (fun h => hmem (List.mem_cons_of_mem m h)) ?_ hsig
        rw [hsigm] at hcount
        simpa using hcount
      · rw [if_pos (by simp [hsigm])]
        rw [hsigm] at hcount
        simp only [if_pos] at hcount
        rw [if_neg (by omega)]
        refine ih rest (count + 1) sg (fun h => hmem (List.mem_cons_of_mem m h)) ?_ hsig
        omega
  have hC : ∀ (p rest : List GstMessage) (count : ℕ),
      GstMessage.error ∉ p →
      count + p.countP GstMessage.isSignal < 2 →
      waitLoop count (p ++ GstMessage.error :: rest) =
        some (WaitExit.erred, rest) := by
    intro p
    induction p with
    | nil =>
      intro rest count _ _
      rw [List.nil_append, waitLoop, if_pos rfl]
    | cons m p ih =>
      intro rest count hmem hcount
      have hm : m ≠ GstMessage.error := fun h => hmem (h ▸ List.mem_cons_self m p)
      rw [List.countP_cons] at hcount
      rw [List.cons_append, waitLoop, if_neg hm]
      rcases hsigm : m.isSignal with _ | _
      · rw [if_neg (by simp [hsigm])]
        refine ih rest count (fun h => hmem (List.mem_cons_of_mem m h)) ?_
        rw [hsigm] at hcount
        simpa using hcount
      · rw [if_pos (by simp [hsigm])]
        rw [hsigm] at hcount
        simp only [if_pos] at hcount
        rw [if_neg (by omega)]
        exact ih rest (count + 1) (fun h => hmem (List.mem_cons_of_mem m h))
          (by omega)
  refine ⟨hA, hB, hC, ?_⟩
  intro msgs r h
  rw [encodeFinish, h]
  rfl

/-- Witness: `pipeline_completion` on small concrete message sequences. -/
theorem pipeline_completion_witness :
    (0 + [GstMessage.other, GstMessage.eos].countP GstMessage.isSignal < 2 ∧
      GstMessage.error ∉ [GstMessage.other, GstMessage.eos] ∧
      waitLoop 0 [GstMessage.other, GstMessage.eos] = none) ∧
      (GstMessage.error ∉ [GstMessage.eos, GstMessage.other] ∧
        0 + [GstMessage.eos, GstMessage.other].countP GstMessage.isSignal = 1 ∧
        GstMessage.asyncDone.isSignal = true ∧
        waitLoop 0 ([GstMessage.eos, GstMessage.other] ++
            GstMessage.asyncDone :: [GstMessage.other]) =
          some (WaitExit.completed, [GstMessage.other])) ∧
      (GstMessage.error ∉ [GstMessage.eos] ∧
        0 + [GstMessage.eos].countP GstMessage.isSignal < 2 ∧
        waitLoop 0 ([GstMessage.eos] ++ GstMessage.error :: []) =
          some (WaitExit.erred, [])) ∧
      (waitLoop 0 [GstMessage.eos, GstMessage.asyncDone] =
          some (WaitExit.completed, []) ∧
        encodeFinish [GstMessage.eos, GstMessage.asyncDone] =
          some PipelineState.stopped) := by
  refine ⟨⟨by decide, by decide, ?_⟩, ⟨by decide, by decide, by decide, ?_⟩,
    ⟨by decide, by decide, ?_⟩, ⟨by decide, ?_⟩⟩
  · exact pipeline_completion.1 [GstMessage.other, GstMessage.eos] 0
      (by decide) (by decide)
  · exact pipeline_completion.2.1 [GstMessage.eos, GstMessage.other]
      [GstMessage.other] 0 GstMessage.asyncDone (by decide) (by decide)
      (by decide)
  · exact pipeline_completion.2.2.1 [GstMessage.eos] [] 0 (by decide)
      (by decide)
  · exact pipeline_completion.2.2.2 [GstMessage.eos, GstMessage.asyncDone]
      (WaitExit.completed, []) (by decide)


/-! ## Text measurement (`src/video_gen/ui.rs`,
`calculate_text_size_for_width` in `StyledNode::process`) -/

/-- The three query environments of the taffy `MeasureFunc`. -/
inductive AvailableSpace where
  | definite (w : ℚ)
  | minContent
  | maxContent

/-- `f32::MAX`, the width the source passes for a max-content query:
`(2²⁴ − 1) · 2¹⁰⁴`. -/
def f32Max : ℚ := (2 ^ 24 - 1) * 2 ^ 104

/-- The greedy word-packing loop of `calculate_text_size_for_width`.
`lw` abstracts the font measurement of the space-joined candidate line
(`font.layout(..).last()` advance); state: closed `lines`, the current
line as its word list, and `max_width`.  A line closes when the candidate
exceeds the width and the current line is non-empty; only then is the
current line pushed — the loop never pushes the final line.  `max_width`
is updated only in the accumulate branch. -/
def measureLoop (lw : List (List Char) → ℚ) (width : ℚ) :
    List (List Char) → List (List (List Char)) → List (List Char) → ℚ →
      List (List (List Char)) × ℚ
  | [], lines, _current, maxW => (lines, maxW)
  | w :: ws, lines, current, maxW =>
    let temp := current ++ [w]
    let cw := lw temp
    if width < cw ∧ current ≠ [] then
      measureLoop lw width ws (lines ++ [current]) [w] maxW
    else
      measureLoop lw width ws lines temp (max maxW cw)

/-- `calculate_text_size_for_width`: greedy loop over the words, result
`Size { width: max_width, height: line_height * lines.len() }`. -/
def calculate_text_size_for_width (lw : List (List Char) → ℚ)
    (line_height : ℕ) (width : ℚ) (text : List Char) : ℚ × ℚ :=
  let r := measureLoop lw width (splitSp text) [] [] 0
  (r.2, ((line_height * r.1.length : ℕ) : ℚ))

/-- The `MeasureFunc` match of `StyledNode::process` for a text node:
a known width wins; otherwise a definite available width is used
directly, a min-content query measures at width 0, and a max-content
query measures at width `f32::MAX`. -/
def measureText (lw : List (List Char) → ℚ) (line_height : ℕ)
    (knownWidth : Option ℚ) (available : AvailableSpace)
    (text : List Char) : ℚ × ℚ :=
  match knownWidth, available with
  | none, AvailableSpace.definite w =>
    calculate_text_size_for_width lw line_height w text
  | none, AvailableSpace.minContent =>
    calculate_text_size_for_width lw line_height 0 text
  | none, AvailableSpace.maxContent =>
    calculate_text_size_for_width lw line_height f32Max text
  | some w, _ => calculate_text_size_for_width lw line_height w text

/-- A concrete line-width function for evaluation: one unit per character
plus one per word. -/
def demoLineWidth (ws : List (List Char)) : ℚ :=
  (((ws.map List.length).sum + ws.length : ℕ) : ℚ)

/-- C3 (code evidence): the loop never counts the final open line, so the
non-empty one-word text `"Hello"` under a max-content query measures
height `line_height × 0 = 0` — not `line_height × 1 = 10` as one line
would give. -/
theorem text_measure_final_line_uncounted :
    measureText demoLineWidth 10 none AvailableSpace.maxContent
      "Hello".data = (6, 0) ∧ ((10 : ℚ) * 1 ≠ 0) := by
  constructor
  · have hsp : splitSp "Hello".data = ["Hello".data] := by decide
    rw [measureText, calculate_text_size_for_width, hsp]
    simp only [measureLoop]
    rw [if_neg (by simp)]
    simp only [measureLoop]
    have hw : demoLineWidth ([] ++ ["Hello".data]) = 6 := by
      rw [demoLineWidth]
      decide
    rw [hw]
    norm_num
  · norm_num


/-! ## Paint ordering (`src/video_gen/ui.rs`, `VideoUI::render`) -/

/-- Draw command payloads: the background fill emitted first by `render`,
and the per-leaf commands of `into_draw_command` (their positional data is
irrelevant to the ordering claim). -/
inductive DrawCmd where
  | fillBackground (color : ℕ)
  | textCentered (text : List Char)
  | image (handle : ℕ)
deriving DecidableEq

/-- A positioned node carrying its layout-assigned paint-order index
(`layout.order`), as read back by `into_draw_command`. -/
inductive INode where
  | leaf (order : ℕ) (cmd : DrawCmd)
  | container (children : List INode)

/-- Pre-order draw commands of a positioned forest: one command per
text/image leaf, none for containers (`into_draw_command` returns `None`
there). -/
def preorderForest : List INode → List (ℕ × DrawCmd)
  | [] => []
  | INode.leaf o c :: ns => (o, c) :: preorderForest ns
  | INode.container cs :: ns => preorderForest cs ++ preorderForest ns

/-- Node-count measure of a positioned forest. -/
def sizeForest : List INode → ℕ
  | [] => 0
  | INode.leaf _ _ :: ns => 1 + sizeForest ns
  | INode.container cs :: ns => 1 + sizeForest cs + sizeForest ns

theorem sizeForest_append (a b : List INode) :
    sizeForest (a ++ b) = sizeForest a + sizeForest b := by
  induction a using sizeForest.induct with
  | case1 => simp [sizeForest]
  | case2 o c ns ih => simp [sizeForest, ih]; omega
  | case3 cs ns ih => simp [sizeForest, ih]; omega

theorem sizeForest_reverse (a : List INode) :
    sizeForest a.reverse = sizeForest a := by
  induction a with
  | nil => rfl
  | cons x ns ih =>
    rw [List.reverse_cons, sizeForest_append, ih]
    cases x <;> simp [sizeForest] <;> omega

/-- The draw-command collection walk of `VideoUI::render`: a stack of
positioned nodes; `queued.pop()` takes the last pushed element and
children are appended in order, so subtrees are visited right-to-left —
not pre-order.  Discovered commands are appended to `acc`. -/
def stackCmds : List INode → List (ℕ × DrawCmd) → List (ℕ × DrawCmd)
  | [], acc => acc
  | INode.leaf o c :: rest, acc => stackCmds rest (acc ++ [(o, c)])
  | INode.container cs :: rest, acc => stackCmds (cs.reverse ++ rest) acc
termination_by stack _ => sizeForest stack
decreasing_by
  · simp [sizeForest]
  · rw [sizeForest_append, sizeForest_reverse]
    simp [sizeForest]

/-- Modelled from the spec: the paint-order index assignment performed
during layout.  The layout engine is the external `taffy` crate, not part
of this repository; per the spec every node "is assigned a monotonically
increasing paint-order index consistent with a pre-order traversal of the
tree".  Indices start at 1 (index 0 is the background fill); containers
consume an index but contribute no draw command. -/
def assignForest : List Node → ℕ → List INode × ℕ
  | [], k => ([], k)
  | Node.textCentered t :: ns, k =>
    let r := assignForest ns (k + 1)
    (INode.leaf k (DrawCmd.textCentered t) :: r.1, r.2)
  | Node.image h :: ns, k =>
    let r := assignForest ns (k + 1)
    (INode.leaf k (DrawCmd.image h) :: r.1, r.2)
  | Node.container cs :: ns, k =>
    let rc := assignForest cs (k + 1)
    let rn := assignForest ns rc.2
    (INode.container rc.1 :: rn.1, rn.2)

/-- Stable insertion into a key-sorted command list: the new command goes
after every entry whose key is at most its own, matching Rust's stable
`sort_by_key`. -/
def insertCmd (x : ℕ × DrawCmd) : List (ℕ × DrawCmd) → List (ℕ × DrawCmd)
  | [] => [x]
  | y :: ys => if x.1 ≤ y.1 then x :: y :: ys else y :: insertCmd x ys

/-- Stable sort by paint-order key (`commands.sort_by_key(|(_, key)| *key)`). -/
def sortCmds : List (ℕ × DrawCmd) → List (ℕ × DrawCmd)
  | [] => []
  | x :: xs => insertCmd x (sortCmds xs)

/-- `VideoUI::render`, reduced to its command ordering: push the root's
children (popped right-to-left, hence the initial reversal), collect
commands in stack order, prepend the background fill with key 0, and
stably sort by key — the sorted list is applied in order. -/
def renderCommands (ui : VideoUI) : List (ℕ × DrawCmd) :=
  sortCmds ((0, DrawCmd.fillBackground ui.background_color) ::
    stackCmds (assignForest ui.children 1).1.reverse [])

theorem preorderForest_append (a b : List INode) :
    preorderForest (a ++ b) = preorderForest a ++ preorderForest b := by
  induction a using preorderForest.induct with
  | case1 => simp [preorderForest]
  | case2 o c ns ih => simp [preorderForest, ih]
  | case3 cs ns ih1 ih2 => simp [preorderForest, ih2]

theorem preorderForest_single (x : INode) (ns : List INode) :
    preorderForest (x :: ns) = preorderForest [x] ++ preorderForest ns := by
  cases x <;> simp [preorderForest]

theorem preorderForest_reverse_perm (a : List INode) :
    (preorderForest a.reverse).Perm (preorderForest a) := by
  induction a with
  | nil => exact List.Perm.refl _
  | cons x ns ih =>
    rw [List.reverse_cons, preorderForest_append]
    refine List.perm_append_comm.trans ?_
    rw [preorderForest_single x ns]
    exact ih.append_left _

/-- The stack walk discovers exactly the pre-order commands, as a
permutation. -/
theorem stackCmds_perm (stack : List INode) (acc : List (ℕ × DrawCmd)) :
    (stackCmds stack acc).Perm (acc ++ preorderForest stack) := by
  induction stack, acc using stackCmds.induct with
  | case1 acc => simp [stackCmds, preorderForest]
  | case2 o c rest acc ih =>
    rw [stackCmds]
    refine ih.trans ?_
    rw [List.append_assoc]
    simp [preorderForest]
  | case3 cs rest acc ih =>
    rw [stackCmds]
    refine ih.trans ?_
    rw [preorderForest_append,
      show preorderForest (INode.container cs :: rest) =
        preorderForest cs ++ preorderForest rest from by simp [preorderForest]]
    exact ((preorderForest_reverse_perm cs).append_right _).append_left _

/-- The spec-modelled assignment is monotonically increasing in pre-order:
all emitted keys lie in `[k, k')` and are strictly increasing. -/
theorem assignForest_bounds (ns : List Node) (k : ℕ) :
    k ≤ (assignForest ns k).2 ∧
      List.Pairwise (fun a b : ℕ × DrawCmd => a.1 < b.1)
        (preorderForest (assignForest ns k).1) ∧
      ∀ p ∈ preorderForest (assignForest ns k).1,
        k ≤ p.1 ∧ p.1 < (assignForest ns k).2 := by
  induction ns, k using assignForest.induct with
  | case1 k =>
    simp only [assignForest]
    exact ⟨le_refl k, by simp [preorderForest], by simp [preorderForest]⟩
  | case2 t ns k ih =>
    obtain ⟨ihk, ihpw, ihb⟩ := ih
    simp only [assignForest, preorderForest]
    refine ⟨by omega, ?_, ?_⟩
    · refine List.Pairwise.cons ?_ ihpw
      intro p hp
      have := (ihb p hp).1
      simp only []
      omega
    · intro p hp
      rcases List.mem_cons.mp hp with h | h
      · rw [h]
        have := ihk
        constructor
        · exact le_refl k
        · simp only []
          omega
      · have := ihb p h
        exact ⟨by omega, this.2⟩
  | case3 h ns k ih =>
    obtain ⟨ihk, ihpw, ihb⟩ := ih
    simp only [assignForest, preorderForest]
    refine ⟨by omega, ?_, ?_⟩
    · refine List.Pairwise.cons ?_ ihpw
      intro p hp
      have := (ihb p hp).1
      simp only []
      omega
    · intro p hp
      rcases List.mem_cons.mp hp with h2 | h2
      · rw [h2]
        have := ihk
        constructor
        · exact le_refl k
        · simp only []
          omega
      · have := ihb p h2
        exact ⟨by omega, this.2⟩
  | case4 cs ns k rc ihc ihn =>
    have hrc : rc = assignForest cs (k + 1) := rfl
    rw [hrc] at ihn
    obtain ⟨ihck, ihcpw, ihcb⟩ := ihc
    obtain ⟨ihnk, ihnpw, ihnb⟩ := ihn
    simp only [assignForest, preorderForest]
    refine ⟨by omega, ?_, ?_⟩
    · rw [List.pairwise_append]
      refine ⟨ihcpw, ihnpw, ?_⟩
      intro a ha b hb
      exact lt_of_lt_of_le (ihcb a ha).2 (ihnb b hb).1
    · intro p hp
      rcases List.mem_append.mp hp with h2 | h2
      · have := ihcb p h2
        exact ⟨by omega, by have := ihnk; omega⟩
      · have := ihnb p h2
        exact ⟨by omega, this.2⟩

theorem insertCmd_perm (x : ℕ × DrawCmd) (l : List (ℕ × DrawCmd)) :
    (insertCmd x l).Perm (x :: l) := by
  induction l with
  | nil => exact List.Perm.refl _
  | cons y ys ih =>
    rw [insertCmd]
    by_cases hc : x.1 ≤ y.1
    · rw [if_pos hc]
    · rw [if_neg hc]
      refine (ih.cons y).trans ?_
      exact List.Perm.swap x y ys

theorem sortCmds_perm (l : List (ℕ × DrawCmd)) : (sortCmds l).Perm l := by
  induction l with
  | nil => exact List.Perm.refl _
  | cons x xs ih =>
    rw [sortCmds]
    exact (insertCmd_perm x _).trans (ih.cons x)

theorem mem_insertCmd {x z : ℕ × DrawCmd} {l : List (ℕ × DrawCmd)}
    (h : z ∈ insertCmd x l) : z = x ∨ z ∈ l := by
  have := (insertCmd_perm x l).mem_iff.mp h
  simpa using this

theorem insertCmd_sorted {x : ℕ × DrawCmd} {l : List (ℕ × DrawCmd)}
    (h : List.Pairwise (fun a b : ℕ × DrawCmd => a.1 ≤ b.1) l) :
    List.Pairwise (fun a b : ℕ × DrawCmd => a.1 ≤ b.1) (insertCmd x l) := by
  induction l with
  | nil => simp [insertCmd]
  | cons y ys ih =>
    rcases List.pairwise_cons.mp h with ⟨hy, hys⟩
    rw [insertCmd]
    by_cases hc : x.1 ≤ y.1
    · rw [if_pos hc]
      refine List.Pairwise.cons ?_ h
      intro z hz
      rcases List.mem_cons.mp hz with rfl | hz'
      · exact hc
      · exact le_trans hc (hy z hz')
    · rw [if_neg hc]
      refine List.Pairwise.cons ?_ (ih hys)
      intro z hz
      rcases mem_insertCmd hz with rfl | hz'
      · exact le_of_not_le hc
      · exact hy z hz'

theorem sortCmds_sorted (l : List (ℕ × DrawCmd)) :
    List.Pairwise (fun a b : ℕ × DrawCmd => a.1 ≤ b.1) (sortCmds l) := by
  induction l with
  | nil => exact List.Pairwise.nil
  | cons x xs ih =>
    rw [sortCmds]
    exact insertCmd_sorted ih

/-- Two strictly-key-sorted command lists that are permutations of each
other are equal. -/
theorem sorted_keylt_unique : ∀ (l₁ l₂ : List (ℕ × DrawCmd)), l₁.Perm l₂ →
    List.Pairwise (fun a b : ℕ × DrawCmd => a.1 < b.1) l₁ →
    List.Pairwise (fun a b : ℕ × DrawCmd => a.1 < b.1) l₂ → l₁ = l₂ := by
  intro l₁
  induction l₁ with
  | nil =>
    intro l₂ hp _ _
    exact hp.nil_eq
  | cons x xs ih =>
    intro l₂ hp h1 h2
    cases l₂ with
    | nil => exact absurd hp.eq_nil (by simp)
    | cons y ys =>
      have hxy : x = y := by
        have hx2 : x ∈ y :: ys := hp.mem_iff.mp (List.mem_cons_self x xs)
        have hy1 : y ∈ x :: xs := hp.symm.mem_iff.mp (List.mem_cons_self y ys)
        rcases List.mem_cons.mp hx2 with h | hxys
        · exact h
        · rcases List.mem_cons.mp hy1 with h' | hyxs
          · exact h'.symm
          · have hlt1 := (List.pairwise_cons.mp h1).1 y hyxs
            have hlt2 := (List.pairwise_cons.mp h2).1 x hxys
            exact absurd hlt1 (by omega)
      subst hxy
      rw [ih ys hp.cons_inv (List.pairwise_cons.mp h1).2
        (List.pairwise_cons.mp h2).2]

/-- C2: with the spec-modelled pre-order paint indices, the render's
sorted command list — for ANY traversal order of the positioned tree,
i.e. any permutation of the discovered commands — is exactly the
background fill followed by the pre-order commands, whose indices are
strictly increasing.  In particular the stack walk actually used by
`VideoUI::render` yields that same list. -/
theorem paint_order_stability (ui : VideoUI) (l : List (ℕ × DrawCmd))
    (hperm : l.Perm ((0, DrawCmd.fillBackground ui.background_color) ::
      stackCmds (assignForest ui.children 1).1.reverse [])) :
    List.Pairwise (fun a b : ℕ × DrawCmd => a.1 < b.1)
        ((0, DrawCmd.fillBackground ui.background_color) ::
          preorderForest (assignForest ui.children 1).1) ∧
      sortCmds l = (0, DrawCmd.fillBackground ui.background_color) ::
        preorderForest (assignForest ui.children 1).1 ∧
      renderCommands ui = (0, DrawCmd.fillBackground ui.background_color) ::
        preorderForest (assignForest ui.children 1).1 := by
  obtain ⟨hk, hpw, hb⟩ := assignForest_bounds ui.children 1
  have hTpw : List.Pairwise (fun a b : ℕ × DrawCmd => a.1 < b.1)
      ((0, DrawCmd.fillBackground ui.background_color) ::
        preorderForest (assignForest ui.children 1).1) := by
    refine List.Pairwise.cons ?_ hpw
    intro p hp
    have := (hb p hp).1
    simp only []
    omega
  have hstack : (stackCmds (assignForest ui.children 1).1.reverse []).Perm
      (preorderForest (assignForest ui.children 1).1) := by
    refine (stackCmds_perm _ _).trans ?_
    rw [List.nil_append]
    exact preorderForest_reverse_perm _
  have key : ∀ l' : List (ℕ × DrawCmd),
      l'.Perm ((0, DrawCmd.fillBackground ui.background_color) ::
        stackCmds (assignForest ui.children 1).1.reverse []) →
      sortCmds l' = (0, DrawCmd.fillBackground ui.background_color) ::
        preorderForest (assignForest ui.children 1).1 := by
    intro l' hperm'
    have hp1 : (sortCmds l').Perm
        ((0, DrawCmd.fillBackground ui.background_color) ::
          preorderForest (assignForest ui.children 1).1) :=
      (sortCmds_perm l').trans (hperm'.trans (hstack.cons _))
    have hTnodup : (((0, DrawCmd.fillBackground ui.background_color) ::
        preorderForest (assignForest ui.children 1).1).map Prod.fst).Nodup :=
      List.pairwise_map.mpr (hTpw.imp (fun h => Nat.ne_of_lt h))
    have hsnodup : ((sortCmds l').map Prod.fst).Nodup :=
      ((hp1.map Prod.fst).nodup_iff).mpr hTnodup
    have hne : List.Pairwise (fun a b : ℕ × DrawCmd => a.1 ≠ b.1)
        (sortCmds l') := List.pairwise_map.mp hsnodup
    have hlt : List.Pairwise (fun a b : ℕ × DrawCmd => a.1 < b.1)
        (sortCmds l') :=
      ((sortCmds_sorted l').and hne).imp (fun h => lt_of_le_of_ne h.1 h.2)
    exact sorted_keylt_unique _ _ hp1 hlt hTpw
  exact ⟨hTpw, key l hperm, by rw [renderCommands]; exact key _ (List.Perm.refl _)⟩

/-- Witness: `paint_order_stability` on a two-child tree whose commands
are supplied in a shuffled order. -/
theorem paint_order_stability_witness :
    ([((3 : ℕ), DrawCmd.image 5), (0, DrawCmd.fillBackground 7),
        (1, DrawCmd.textCentered ['a'])].Perm
      ((0, DrawCmd.fillBackground
          (VideoUI.mk [Node.textCentered ['a'],
            Node.container [Node.image 5]] 7).background_color) ::
        stackCmds (assignForest
          (VideoUI.mk [Node.textCentered ['a'],
            Node.container [Node.image 5]] 7).children 1).1.reverse [])) ∧
      (List.Pairwise (fun a b : ℕ × DrawCmd => a.1 < b.1)
          ((0, DrawCmd.fillBackground
              (VideoUI.mk [Node.textCentered ['a'],
                Node.container [Node.image 5]] 7).background_color) ::
            preorderForest (assignForest
              (VideoUI.mk [Node.textCentered ['a'],
                Node.container [Node.image 5]] 7).children 1).1) ∧
        sortCmds [((3 : ℕ), DrawCmd.image 5), (0, DrawCmd.fillBackground 7),
            (1, DrawCmd.textCentered ['a'])] =
          (0, DrawCmd.fillBackground
            (VideoUI.mk [Node.textCentered ['a'],
              Node.container [Node.image 5]] 7).background_color) ::
            preorderForest (assignForest
              (VideoUI.mk [Node.textCentered ['a'],
                Node.container [Node.image 5]] 7).children 1).1 ∧
        renderCommands (VideoUI.mk [Node.textCentered ['a'],
            Node.container [Node.image 5]] 7) =
          (0, DrawCmd.fillBackground
            (VideoUI.mk [Node.textCentered ['a'],
              Node.container [Node.image 5]] 7).background_color) ::
            preorderForest (assignForest
              (VideoUI.mk [Node.textCentered ['a'],
                Node.container [Node.image 5]] 7).children 1).1) := by
  have hstackval : stackCmds (assignForest
      (VideoUI.mk [Node.textCentered ['a'],
        Node.container [Node.image 5]] 7).children 1).1.reverse [] =
      [((3 : ℕ), DrawCmd.image 5), (1, DrawCmd.textCentered ['a'])] := by
    simp [assignForest, stackCmds]
  have hperm : ([((3 : ℕ), DrawCmd.image 5), (0, DrawCmd.fillBackground 7),
      (1, DrawCmd.textCentered ['a'])].Perm
      ((0, DrawCmd.fillBackground
          (VideoUI.mk [Node.textCentered ['a'],
            Node.container [Node.image 5]] 7).background_color) ::
        stackCmds (assignForest
          (VideoUI.mk [Node.textCentered ['a'],
            Node.container [Node.image 5]] 7).children 1).1.reverse [])) := by
    rw [hstackval]
    exact List.Perm.swap (0, DrawCmd.fillBackground 7)
      ((3 : ℕ), DrawCmd.image 5) [(1, DrawCmd.textCentered ['a'])]
  exact ⟨hperm, paint_order_stability
    (VideoUI.mk [Node.textCentered ['a'], Node.container [Node.image 5]] 7)
    [((3 : ℕ), DrawCmd.image 5), (0, DrawCmd.fillBackground 7),
      (1, DrawCmd.textCentered ['a'])] hperm⟩

end HotiRs
